import Mathlib

/-!
# A verification development for the `tsh` shell (`src/main.c`)

The C program is embedded shallowly.  A C buffer is a `List Char`; the byte
`'\x00'` ends a C string and every read at or after the end of the list yields
that terminator.  Pointers into a buffer are offsets.  Loops driven by `strtok`
carry fuel and answer `none` when the fuel runs out; the callers hand over a
fuel that the theorems show to be sufficient.
-/

namespace Shell

/-- Text of a C string, without its terminator. -/
abbrev Str := List Char

/-- The string terminator. -/
def NUL : Char := Char.ofNat 0

/-! ## libc string primitives used by `main.c` -/

/-- Byte stored at offset `p` of a buffer. -/
def byteAt (buf : Str) (p : Nat) : Char := buf.getD p NUL

/-- The C string that starts at offset `p` of a buffer. -/
def cstr (buf : Str) (p : Nat) : Str := (buf.drop p).takeWhile (fun c => c != NUL)

/-- Length of the C string at offset 0: `strlen`. -/
def strlen (s : Str) : Nat := (cstr s 0).length

/-- Length of the initial segment of `s` made of bytes of `accept`: `strspn`. -/
def strspn (s : Str) (accept : Str) : Nat :=
  (s.takeWhile (fun c => c != NUL && decide (c ∈ accept))).length

/-- Length of the initial segment of `s` free of bytes of `reject`: `strcspn`. -/
def strcspn (s : Str) (reject : Str) : Nat :=
  (s.takeWhile (fun c => c != NUL && !decide (c ∈ reject))).length

/-- Outcome of one `strtok` call: the returned pointer (an offset, `none` for
NULL), the buffer after the call and the position saved for `strtok(NULL, _)`. -/
structure Tok where
  tok : Option Nat
  buf : Str
  save : Nat
deriving DecidableEq, Repr

/-- One call of `strtok` scanning `buf` from offset `p`: `strtok(buf, delims)`
is `strtok buf 0 delims`, `strtok(NULL, delims)` restarts at the saved offset.
Leading delimiters are skipped; the delimiter that ends the token is
overwritten with the terminator. -/
def strtok (buf : Str) (p : Nat) (delims : Str) : Tok :=
  let b := p + strspn (buf.drop p) delims
  if byteAt buf b = NUL then ⟨none, buf, b⟩
  else
    let e := b + strcspn (buf.drop b) delims
    if byteAt buf e = NUL then ⟨some b, buf, e⟩
    else ⟨some b, buf.set e NUL, e + 1⟩

/-! ## The tokenizer of `main` (lines 190-217) -/

/-- The delimiter set `" \n"` of `main`. -/
def delims : Str := [' ', '\n']

/-- Counting pass of `main`: `while (token != NULL) { token_num++; token = strtok(NULL, delims); }`.
Yields the number of increments. -/
def count_loop : Nat → Tok → Option Nat
  | 0, _ => none
  | fuel + 1, t =>
    match t.tok with
    | none => some 0
    | some _ => (count_loop fuel (strtok t.buf t.save delims)).map (· + 1)

/-- Filling pass of `main`: `for (i = 0; token != NULL; i++) { argv[i] = copy of token; token = strtok(NULL, delims); }`. -/
def argv_loop : Nat → Tok → Option (List Str)
  | 0, _ => none
  | fuel + 1, t =>
    match t.tok with
    | none => some []
    | some p =>
      (argv_loop fuel (strtok t.buf t.save delims)).map (cstr t.buf p :: ·)

/-- What the tokenizer of `main` hands to the dispatch. -/
inductive Scan where
  /-- The first `strtok` returned NULL: `continue`. -/
  | blank
  /-- The argument vector (without its NULL terminator) and the number of
  tokens seen by the counting pass. -/
  | tokens (argv : List Str) (counted : Nat)
deriving DecidableEq, Repr

/-- Lines 190-217 of `main` on the buffer filled by `getline`. -/
def tokenize (buff : Str) : Option Scan :=
  let t0 := strtok buff 0 delims
  match t0.tok with
  | none => some Scan.blank
  | some p =>
    let buff_copy := cstr t0.buf p
    match count_loop (t0.buf.length + 1) (strtok t0.buf 0 delims),
          argv_loop (buff_copy.length + 1) (strtok buff_copy 0 delims) with
    | some n, some argv => some (Scan.tokens argv n)
    | _, _ => none

/-! ## The environment of the process -/

/-- A byte of a file. -/
abbrev Byte := Fin 256

/-- What the program reads from its surroundings during one iteration of the
read-eval loop.  The oracles stand for the system calls of `main.c`. -/
structure World where
  /-- The value of `getenv("PATH")`, `none` for NULL. -/
  path : Option Str
  /-- The entries of `environ`. -/
  environ : List Str
  /-- Whether `access(p, X_OK) == 0`. -/
  access_x : Str → Bool
  /-- Whether `stat(p, &buff) == 0 && S_ISREG(buff.st_mode) && (buff.st_mode & S_IXUSR)`. -/
  stat_regx : Str → Bool
  /-- The bytes of the files that `fopen(p, "r")` opens, `none` when it fails. -/
  files : Str → Option (List Byte)
  /-- Whether `fopen(p, "w")` succeeds. -/
  writable : Str → Bool
  /-- Whether the `j`-th `fork` of the iteration succeeds. -/
  fork_ok : Nat → Bool

/-- A file-system query made by `get_location`. -/
inductive FsCall where
  | access (p : Str)
  | stat (p : Str)
deriving DecidableEq, Repr

/-- Result of `get_location`: the returned string (`none` for NULL) and the
file-system queries made on the way, in order. -/
structure Found where
  loc : Option Str
  calls : List FsCall
deriving DecidableEq, Repr

/-! ## `get_location` (lines 15-70) -/

/-- The check of `command` in the current directory (lines 30-34 and 64-69). -/
def cwd_check (w : World) (command : Str) : Found :=
  if w.stat_regx command then ⟨some command, [FsCall.stat command]⟩
  else ⟨none, [FsCall.stat command]⟩

/-- The `while (token != NULL)` loop of `get_location` (lines 39-60) followed by
the fallback of lines 61-69. -/
def path_loop (w : World) (command : Str) : Nat → Tok → Option Found
  | 0, _ => none
  | fuel + 1, t =>
    match t.tok with
    | none => some (cwd_check w command)
    | some p =>
      let full_path := cstr t.buf p ++ '/' :: command
      if w.access_x full_path then some ⟨some full_path, [FsCall.access full_path]⟩
      else
        (path_loop w command fuel (strtok t.buf t.save [':'])).map
          (fun f => ⟨f.loc, FsCall.access full_path :: f.calls⟩)

/-- The function `get_location`. -/
def get_location (w : World) (command : Str) : Option Found :=
  match w.path with
  | none => some ⟨none, []⟩
  | some path =>
    if strlen path = 0 then some (cwd_check w command)
    else path_loop w command (path.length + 1) (strtok path 0 [':'])

/-! ## `atoi` -/

/-- The white-space class of the C locale: `isspace`. -/
def isspace (c : Char) : Bool :=
  c = ' ' || c = '\t' || c = '\n' || c = Char.ofNat 11 || c = Char.ofNat 12 || c = '\r'

/-- Decimal digits: `isdigit`. -/
def isdigit (c : Char) : Bool := decide ('0' ≤ c) && decide (c ≤ '9')

/-- The text left of a numeral once leading white space and one optional sign
are removed. -/
def unsigned_part (s : Str) : Str :=
  match s.dropWhile isspace with
  | '-' :: t => t
  | '+' :: t => t
  | t => t

/-- Whether the numeral carries a minus sign. -/
def is_negative (s : Str) : Bool :=
  match s.dropWhile isspace with
  | '-' :: _ => true
  | _ => false

/-- The run of digits a numeral starts with. -/
def digit_run (s : Str) : Str := (unsigned_part s).takeWhile isdigit

/-- Value of a run of decimal digits. -/
def digits_value (ds : Str) : Nat := ds.foldl (fun acc c => 10 * acc + (c.toNat - 48)) 0

/-- The conversion `strtol(s, NULL, 10)` with a 64-bit `long`: the value of the
leading numeral, 0 when there is none, saturated at `LONG_MIN` and `LONG_MAX`. -/
def strtol10 (s : Str) : Int :=
  let v : Int := if is_negative s then -(digits_value (digit_run s) : Int) else (digits_value (digit_run s) : Int)
  max (-(2 ^ 63)) (min v (2 ^ 63 - 1))

/-- Conversion of a `long` to a 32-bit `int`. -/
def to_int (v : Int) : Int := (v + 2 ^ 31) % 2 ^ 32 - 2 ^ 31

/-- The function `atoi` as glibc defines it: `(int) strtol(s, NULL, 10)`. -/
def atoi (s : Str) : Int := to_int (strtol10 s)

/-! ## Observable behaviour -/

/-- What one iteration does to the outside. -/
inductive Event where
  /-- Text written to standard output. -/
  | out (text : Str)
  /-- A diagnostic written by `perror`. -/
  | perror (text : Str)
  /-- The `fork` of `execute_command` succeeded: the child ran
  `execve(path, argv, NULL)` and the parent waited for it. -/
  | spawn (path : Option Str) (argv : List Str)
  /-- The `fork` of `execute_command` failed. -/
  | fork_error
deriving DecidableEq, Repr

/-- How control leaves a piece of `main`. -/
inductive Ctl where
  /-- On to the next iteration of `while (1)`. -/
  | next
  /-- The statement `break`: `main` returns 0. -/
  | stop
  /-- A call of `exit` with this status. -/
  | exit (code : Nat)
deriving DecidableEq, Repr

/-- Number of calls of `execute_command` recorded in a trace: every call
either forks a child or fails to. -/
def execute_calls : List Event → Nat
  | [] => 0
  | Event.spawn _ _ :: es => execute_calls es + 1
  | Event.fork_error :: es => execute_calls es + 1
  | _ :: es => execute_calls es

/-- Number of child processes recorded in a trace. -/
def spawn_count : List Event → Nat
  | [] => 0
  | Event.spawn _ _ :: es => spawn_count es + 1
  | _ :: es => spawn_count es

/-! ## `execute_command` and `execmd` (lines 76-128) -/

/-- The function `execmd`, run by the child: it resolves `argv[0]` again and
calls `execve(path, argv, NULL)`. -/
def execmd (w : World) (command : Str) (args : List Str) : Option Event :=
  (get_location w command).map (fun f => Event.spawn f.loc (command :: args))

/-- One call of `execute_command(argv)` as the `j`-th fork of the iteration.
The second component is the exit status when the call ends the shell. -/
def execute_command (w : World) (command : Str) (args : List Str) (j : Nat) :
    Option (Event × Option Nat) :=
  if w.fork_ok j then (execmd w command args).map (fun e => (e, none))
  else some (Event.fork_error, some 1)

/-! ## `copy_file` (lines 135-161) -/

/-- The value `EOF`. -/
def EOF : Int := -1

/-- One call of `fgetc` on the unread bytes of a stream. -/
def fgetc : List Byte → Int × List Byte
  | [] => (EOF, [])
  | b :: bs => ((b.val : Int), bs)

/-- Assignment of an `int` to a plain `char`, which is signed on the platforms
the shell is built for (gcc on x86). -/
def to_char (v : Int) : Int := (v + 128) % 256 - 128

/-- The byte `fputc` writes: its argument converted to `unsigned char`. -/
def to_uchar (v : Int) : Byte := Fin.ofNat (v % 256).toNat

/-- The loop `while ((ch = fgetc(fp1)) != EOF) fputc(ch, fp2);` on the unread
bytes of `fp1`, with the bytes written to `fp2` so far.  At the end of the
stream `fgetc` yields `EOF`, which the conversion to `char` leaves unchanged
(`to_char_EOF`), and the loop ends. -/
def copy_loop : List Byte → List Byte → List Byte
  | [], written => written
  | b :: bs, written =>
    let ch := to_char (fgetc (b :: bs)).1
    if ch ≠ EOF then copy_loop bs (written ++ [to_uchar ch]) else written

/-- How `copy_file` ends. -/
inductive Copied where
  /-- An `fopen` failed: `perror` and `exit(1)`. -/
  | open_failed
  /-- Both streams were closed; the files afterwards. -/
  | done (files : Str → Option (List Byte))

/-- The function `copy_file`.  Opening the destination for writing creates or
truncates it before the first byte of the source is read. -/
def copy_file (w : World) (src dst : Str) : Copied :=
  match w.files src with
  | none => Copied.open_failed
  | some _ =>
    if w.writable dst then
      let files1 : Str → Option (List Byte) := fun p => if p = dst then some [] else w.files p
      let written := copy_loop ((files1 src).getD []) []
      Copied.done (fun p => if p = dst then some written else files1 p)
    else Copied.open_failed

/-! ## The dispatch of `main` (lines 218-250) -/

/-- The value of `times` before the loop of lines 246-249. -/
def repeat_times (args : List Str) : Int :=
  match args.head? with
  | none => 1
  | some a => if atoi a = 0 then 1 else atoi a

/-- The loop `for (j = 0; j < times; j++) execute_command(argv);` with `n`
rounds left. -/
def repeat_loop (w : World) (command : Str) (args : List Str) : Nat → Nat → Option (List Event × Ctl)
  | 0, _ => some ([], Ctl.next)
  | n + 1, j =>
    match execute_command w command args j with
    | none => none
    | some (e, some code) => some ([e], Ctl.exit code)
    | some (e, none) => (repeat_loop w command args n (j + 1)).map (fun r => (e :: r.1, r.2))

/-- The external-execution branch of `main` (lines 236-249). -/
def external_branch (w : World) (command : Str) (args : List Str) : Option (List Event × Ctl) :=
  repeat_loop w command args (repeat_times args).toNat 0

/-- The function `print_environment`. -/
def print_environment (w : World) : List Event :=
  w.environ.map (fun e => Event.out (e ++ ['\n']))

/-- The operands of the copy builtin when the test
`strcmp(argv[0], "cp") == 0 && argv[1] != NULL && argv[2] != NULL` passes. -/
def cp_operands (command : Str) (args : List Str) : Option (Str × Str) :=
  if command = "cp".toList then
    match args with
    | src :: dst :: _ => some (src, dst)
    | _ => none
  else none

/-- Result of one iteration: its trace, how control goes on and the files
afterwards. -/
structure Step where
  events : List Event
  ctl : Ctl
  files : Str → Option (List Byte)

/-- Lines 218-250 of `main` for the argument vector `command :: args`. -/
def dispatch (w : World) (command : Str) (args : List Str) : Option Step :=
  match get_location w command with
  | none => none
  | some location =>
    if command = "exit".toList then some ⟨[], Ctl.stop, w.files⟩
    else if command = "env".toList then some ⟨print_environment w, Ctl.next, w.files⟩
    else
      match cp_operands command args with
      | some (src, dst) =>
        match copy_file w src dst with
        | Copied.open_failed => some ⟨[Event.perror "Error:".toList], Ctl.exit 1, w.files⟩
        | Copied.done files => some ⟨[], Ctl.next, files⟩
      | none =>
        if location.loc = none then
          some ⟨[Event.out ("Command not found: ".toList ++ command ++ ['\n'])], Ctl.next, w.files⟩
        else
          (external_branch w command args).map (fun r => ⟨r.1, r.2, w.files⟩)

/-- The body of `while (1)` after a successful `getline` that filled `buff`
(lines 190-250).  An argument vector without a first element cannot be
dispatched and yields no result. -/
def iteration (w : World) (buff : Str) : Option Step :=
  match tokenize buff with
  | none => none
  | some Scan.blank => some ⟨[], Ctl.next, w.files⟩
  | some (Scan.tokens [] _) => none
  | some (Scan.tokens (command :: args) _) => dispatch w command args

/-! ## Reference notions of the specification -/

/-- The non-empty fields of `s` between separators taken from `seps`. -/
def fields (seps : Str) (s : Str) : List Str :=
  (s.splitOnP (fun c => decide (c ∈ seps))).filter (fun f => decide (f ≠ []))

/-- The directories of a search path: its non-empty fields between colons. -/
def path_dirs (path : Str) : List Str := fields [':'] path

/-- The candidate that `get_location` builds for a directory. -/
def candidate (dir command : Str) : Str := dir ++ '/' :: command

/-- The first token of a line: what follows the leading delimiters up to the
next delimiter. -/
def first_token (line : Str) : Str :=
  (line.dropWhile (fun c => decide (c ∈ delims))).takeWhile (fun c => !decide (c ∈ delims))

/-! ## Closed forms used by the proofs -/

/-- The common shape of the three token loops of `main.c`: `base` when the
pending call returned NULL, else `step` applied to the token and to the result
of the loop after the next call. -/
def tok_loop {β : Type} (ds : Str) (base : β) (step : Str → Option β → Option β) :
    Nat → Tok → Option β
  | 0, _ => none
  | fuel + 1, t =>
    match t.tok with
    | none => some base
    | some p => step (cstr t.buf p) (tok_loop ds base step fuel (strtok t.buf t.save ds))

/-- One round of the loop of `get_location` seen from its result. -/
def path_step (w : World) (command : Str) (dir : Str) (later : Option Found) : Option Found :=
  if w.access_x (dir ++ '/' :: command) then
    some ⟨some (dir ++ '/' :: command), [FsCall.access (dir ++ '/' :: command)]⟩
  else later.map (fun f => ⟨f.loc, FsCall.access (dir ++ '/' :: command) :: f.calls⟩)

/-- The search that `get_location` performs over a list of directories: the
first candidate that passes the access check, else the check of the bare
command. -/
def search (w : World) (command : Str) : List Str → Found
  | [] => cwd_check w command
  | dir :: dirs =>
    if w.access_x (candidate dir command) then
      ⟨some (candidate dir command), [FsCall.access (candidate dir command)]⟩
    else
      ⟨(search w command dirs).loc, FsCall.access (candidate dir command) :: (search w command dirs).calls⟩

/-! ## Sample worlds -/

/-- A world with the given search path and executables and nothing else. -/
def sample_world (path : Option Str) (executables : List Str) : World :=
  { path := path, environ := [], access_x := fun p => decide (p ∈ executables),
    stat_regx := fun _ => false, files := fun _ => none, writable := fun _ => true,
    fork_ok := fun _ => true }

/-- A world with an empty search path in which `true` is a regular file that
its owner may execute. -/
def cwd_world : World :=
  { path := some [], environ := [], access_x := fun _ => false,
    stat_regx := fun p => decide (p = "true".toList), files := fun _ => none,
    writable := fun _ => true, fork_ok := fun _ => true }

/-- A world without search-path variable in which every path passes both checks. -/
def no_path_world : World :=
  { path := none, environ := [], access_x := fun _ => true, stat_regx := fun _ => true,
    files := fun _ => none, writable := fun _ => true, fork_ok := fun _ => true }

/-- A world whose file `a.txt` holds the bytes 0x41, 0xFF, 0x42. -/
def ff_world : World :=
  { path := none, environ := [], access_x := fun _ => false, stat_regx := fun _ => false,
    files := fun p => if p = "a.txt".toList then some [65, 255, 66] else none,
    writable := fun _ => true, fork_ok := fun _ => true }

/-! ## Facts about the string primitives -/

theorem byteAt_append (pre R : Str) : byteAt (pre ++ R) pre.length = R.headD NUL := by
  unfold byteAt
  rw [List.getD_eq_getElem?_getD, List.getElem?_append_right (le_refl _)]
  cases R <;> simp

theorem drop_append_length (pre R : Str) : (pre ++ R).drop pre.length = R := by
  simp

theorem takeWhile_stop (p : Char → Bool) (R : Str) (hp : p NUL = false)
    (hR : R.headD NUL = NUL) : R.takeWhile p = [] := by
  cases R with
  | nil => rfl
  | cons c cs =>
    simp only [List.headD_cons] at hR
    subst hR
    simp [List.takeWhile_cons, hp]

theorem takeWhile_exact (p : Char → Bool) (L R : Str) (hL : ∀ c ∈ L, p c = true)
    (hR : R.takeWhile p = []) : (L ++ R).takeWhile p = L := by
  rw [List.takeWhile_append_of_pos hL, hR, List.append_nil]

theorem cstr_append (pre T R : Str) (hT : ∀ c ∈ T, c ≠ NUL) (hR : R.headD NUL = NUL) :
    cstr (pre ++ (T ++ R)) pre.length = T := by
  unfold cstr
  rw [drop_append_length]
  apply takeWhile_exact
  · intro c hc; simpa using hT c hc
  · exact takeWhile_stop _ R (by simp) hR

/-- The call of `strtok` that finds no token. -/
theorem strtok_none (ds pre L R : Str) (hL : ∀ c ∈ L, c ≠ NUL ∧ c ∈ ds)
    (hR : R.headD NUL = NUL) :
    strtok (pre ++ (L ++ R)) pre.length ds = ⟨none, pre ++ (L ++ R), pre.length + L.length⟩ := by
  have hspan : strspn (L ++ R) ds = L.length := by
    unfold strspn
    rw [takeWhile_exact _ L R (by intro c hc; simpa using hL c hc)
      (takeWhile_stop _ R (by simp) hR)]
  have hb : byteAt (pre ++ (L ++ R)) (pre.length + L.length) = NUL := by
    rw [← List.append_assoc, ← List.length_append, byteAt_append]; exact hR
  simp only [strtok, drop_append_length, hspan, hb, if_true]

theorem takeWhile_head_fails (p : Char → Bool) (T R : Str) (hT : T ≠ [])
    (h : ∀ c ∈ T, p c = false) : (T ++ R).takeWhile p = [] := by
  cases T with
  | nil => exact absurd rfl hT
  | cons c cs => simp [List.takeWhile_cons, h c (List.mem_cons_self c cs)]

theorem set_append_length (pre R : Str) (c d : Char) :
    (pre ++ c :: R).set pre.length d = pre ++ d :: R := by
  rw [List.set_append_right _ _ (le_refl _)]; simp

theorem headD_append_ne (T R : Str) (hT : T ≠ []) (h : ∀ c ∈ T, c ≠ NUL) :
    (T ++ R).headD NUL ≠ NUL := by
  cases T with
  | nil => exact absurd rfl hT
  | cons c cs => simpa using h c (List.mem_cons_self c cs)

/-- The call of `strtok` whose token runs up to the end of the string. -/
theorem strtok_last (ds pre L T R : Str) (hL : ∀ c ∈ L, c ≠ NUL ∧ c ∈ ds)
    (hT : ∀ c ∈ T, c ≠ NUL ∧ c ∉ ds) (hT0 : T ≠ []) (hR : R.headD NUL = NUL) :
    strtok (pre ++ (L ++ (T ++ R))) pre.length ds =
      ⟨some (pre.length + L.length), pre ++ (L ++ (T ++ R)),
        pre.length + L.length + T.length⟩ := by
  have hspan : strspn (L ++ (T ++ R)) ds = L.length := by
    unfold strspn
    rw [takeWhile_exact _ L (T ++ R) (by intro c hc; simpa using hL c hc)
      (takeWhile_head_fails _ T R hT0 (by intro c hc; simp [(hT c hc).2]))]
  have hb : byteAt (pre ++ (L ++ (T ++ R))) (pre.length + L.length) ≠ NUL := by
    rw [← List.append_assoc, ← List.length_append, byteAt_append]
    exact headD_append_ne T R hT0 (fun c hc => (hT c hc).1)
  have hdrop : (pre ++ (L ++ (T ++ R))).drop (pre.length + L.length) = T ++ R := by
    rw [← List.append_assoc, ← List.length_append, drop_append_length]
  have hcspan : strcspn (T ++ R) ds = T.length := by
    unfold strcspn
    rw [takeWhile_exact _ T R (by intro c hc; simpa using hT c hc)
      (takeWhile_stop _ R (by simp) hR)]
  have he : byteAt (pre ++ (L ++ (T ++ R))) (pre.length + L.length + T.length) = NUL := by
    rw [← List.append_assoc, ← List.append_assoc, ← List.length_append, ← List.length_append,
      byteAt_append]
    exact hR
  simp only [strtok, drop_append_length, hspan, hb, hdrop, hcspan, he, if_true, if_false]

/-- The call of `strtok` whose token is ended by a delimiter, which the call
overwrites with the terminator. -/
theorem strtok_cut (ds pre L T R : Str) (d : Char) (hL : ∀ c ∈ L, c ≠ NUL ∧ c ∈ ds)
    (hT : ∀ c ∈ T, c ≠ NUL ∧ c ∉ ds) (hT0 : T ≠ []) (hd : d ≠ NUL ∧ d ∈ ds) :
    strtok (pre ++ (L ++ (T ++ d :: R))) pre.length ds =
      ⟨some (pre.length + L.length), pre ++ (L ++ (T ++ NUL :: R)),
        pre.length + L.length + T.length + 1⟩ := by
  have hspan : strspn (L ++ (T ++ d :: R)) ds = L.length := by
    unfold strspn
    rw [takeWhile_exact _ L (T ++ d :: R) (by intro c hc; simpa using hL c hc)
      (takeWhile_head_fails _ T _ hT0 (by intro c hc; simp [(hT c hc).2]))]
  have hb : byteAt (pre ++ (L ++ (T ++ d :: R))) (pre.length + L.length) ≠ NUL := by
    rw [← List.append_assoc, ← List.length_append, byteAt_append]
    exact headD_append_ne T _ hT0 (fun c hc => (hT c hc).1)
  have hdrop : (pre ++ (L ++ (T ++ d :: R))).drop (pre.length + L.length) = T ++ d :: R := by
    rw [← List.append_assoc, ← List.length_append, drop_append_length]
  have hcspan : strcspn (T ++ d :: R) ds = T.length := by
    unfold strcspn
    rw [takeWhile_exact _ T (d :: R) (by intro c hc; simpa using hT c hc)
      (by simp [List.takeWhile_cons, hd.2])]
  have he : byteAt (pre ++ (L ++ (T ++ d :: R))) (pre.length + L.length + T.length) ≠ NUL := by
    rw [← List.append_assoc, ← List.append_assoc, ← List.length_append, ← List.length_append,
      byteAt_append]
    simpa using hd.1
  have hset : (pre ++ (L ++ (T ++ d :: R))).set (pre.length + L.length + T.length) NUL
      = pre ++ (L ++ (T ++ NUL :: R)) := by
    rw [← List.append_assoc, ← List.append_assoc, ← List.length_append, ← List.length_append,
      set_append_length]
    simp
  simp only [strtok, drop_append_length, hspan, hb, hdrop, hcspan, he, hset, if_false]

/-! ## Fields of a text -/

theorem fields_nil (ds : Str) : fields ds [] = [] := by
  simp [fields, List.splitOnP_nil]

theorem fields_skip (ds L X : Str) (hL : ∀ c ∈ L, c ∈ ds) : fields ds (L ++ X) = fields ds X := by
  induction L with
  | nil => rfl
  | cons c cs ih =>
    have hc : c ∈ ds := hL c (List.mem_cons_self c cs)
    have ih2 := ih (fun x hx => hL x (List.mem_cons_of_mem c hx))
    unfold fields at ih2 ⊢
    rw [List.cons_append, List.splitOnP_cons]
    simp only [hc, decide_True, if_true]
    rw [List.filter_cons]
    simpa using ih2

theorem fields_single (ds T : Str) (hT : ∀ c ∈ T, c ∉ ds) (hT0 : T ≠ []) : fields ds T = [T] := by
  unfold fields
  rw [List.splitOnP_eq_single]
  · simp [hT0]
  · intro c hc; simpa using hT c hc

theorem fields_cons (ds T X : Str) (d : Char) (hT : ∀ c ∈ T, c ∉ ds) (hT0 : T ≠ [])
    (hd : d ∈ ds) : fields ds (T ++ d :: X) = T :: fields ds X := by
  unfold fields
  rw [List.splitOnP_first _ T (by intro c hc; simpa using hT c hc) d (by simpa using hd)]
  simp [hT0]

/-- Shape of a text with respect to a delimiter set: leading delimiters, then
nothing, or a last token, or a token, a delimiter and a rest. -/
theorem text_shape (ds s : Str) :
    ∃ L, (∀ c ∈ L, c ∈ ds) ∧
      (s = L ∨ ∃ T, T ≠ [] ∧ (∀ c ∈ T, c ∉ ds) ∧
        (s = L ++ T ∨ ∃ d X, d ∈ ds ∧ s = L ++ (T ++ d :: X))) := by
  refine ⟨s.takeWhile (fun c => decide (c ∈ ds)), ?_, ?_⟩
  · intro c hc; simpa using List.mem_takeWhile_imp hc
  · have hs : s = s.takeWhile (fun c => decide (c ∈ ds)) ++ s.dropWhile (fun c => decide (c ∈ ds)) :=
      (List.takeWhile_append_dropWhile _ s).symm
    cases hrest : s.dropWhile (fun c => decide (c ∈ ds)) with
    | nil => left; rw [hrest, List.append_nil] at hs; exact hs
    | cons a rest =>
      right
      have ha : a ∉ ds := by
        have := List.head_dropWhile_not (fun c => decide (c ∈ ds)) s (by rw [hrest]; simp)
        simpa [hrest] using this
      refine ⟨(a :: rest).takeWhile (fun c => !decide (c ∈ ds)), ?_, ?_, ?_⟩
      · simp [List.takeWhile_cons, ha]
      · intro c hc; simpa using List.mem_takeWhile_imp hc
      · have h2 : a :: rest = (a :: rest).takeWhile (fun c => !decide (c ∈ ds)) ++
            (a :: rest).dropWhile (fun c => !decide (c ∈ ds)) :=
          (List.takeWhile_append_dropWhile _ _).symm
        cases hr2 : (a :: rest).dropWhile (fun c => !decide (c ∈ ds)) with
        | nil =>
          left
          rw [hr2, List.append_nil] at h2
          rw [← h2, ← hrest]; exact hs
        | cons d X =>
          right
          refine ⟨d, X, ?_, ?_⟩
          · have := List.head_dropWhile_not (fun c => !decide (c ∈ ds)) (a :: rest)
              (by rw [hr2]; simp)
            simpa [hr2] using this
          · rw [← hr2, ← h2, ← hrest]; exact hs

/-! ## Loops driven by `strtok` -/

/-- With more fuel than the text is long, a token loop folds over the fields
of the text, whatever surrounds the text in the buffer. -/
theorem tok_loop_fields {β : Type} (ds : Str) (base : β) (step : Str → Option β → Option β) :
    ∀ (fuel : Nat) (pre s tail : Str), s.length < fuel → (∀ c ∈ s, c ≠ NUL) →
      tail.headD NUL = NUL →
      tok_loop ds base step fuel (strtok (pre ++ (s ++ tail)) pre.length ds)
        = (fields ds s).foldr step (some base) := by
  intro fuel
  induction fuel with
  | zero => intro pre s tail h; exact absurd h (Nat.not_lt_zero _)
  | succ fuel ih =>
    intro pre s tail hlen hs htail
    obtain ⟨L, hL, hshape⟩ := text_shape ds s
    rcases hshape with rfl | ⟨T, hT0, hT, rfl | ⟨d, X, hd, rfl⟩⟩
    · rw [strtok_none ds pre s tail (fun c hc => ⟨hs c hc, hL c hc⟩) htail]
      have : fields ds s = [] := by
        have := fields_skip ds s [] hL
        rwa [List.append_nil, fields_nil] at this
      simp [tok_loop, this]
    · have hLs : ∀ c ∈ L, c ≠ NUL ∧ c ∈ ds :=
        fun c hc => ⟨hs c (List.mem_append_left _ hc), hL c hc⟩
      have hTs : ∀ c ∈ T, c ≠ NUL ∧ c ∉ ds :=
        fun c hc => ⟨hs c (List.mem_append_right _ hc), hT c hc⟩
      rw [List.append_assoc, strtok_last ds pre L T tail hLs hTs hT0 htail]
      have hfuel : 0 < fuel := by
        have : 0 < T.length := List.length_pos.mpr hT0
        simp only [List.length_append] at hlen
        omega
      have hnext := ih (pre ++ (L ++ T)) [] tail hfuel (by simp) htail
      have hbuf : pre ++ (L ++ (T ++ tail)) = (pre ++ (L ++ T)) ++ ([] ++ tail) := by simp
      have hpos : pre.length + L.length + T.length = (pre ++ (L ++ T)).length := by
        simp [Nat.add_assoc]
      have hcs : cstr (pre ++ (L ++ (T ++ tail))) (pre.length + L.length) = T := by
        have := cstr_append (pre ++ L) T tail (fun c hc => (hTs c hc).1) htail
        simpa using this
      simp only [tok_loop, hcs]
      rw [hpos, hbuf, hnext, fields_skip ds L T hL, fields_single ds T hT hT0, fields_nil]
      rfl
    · have hLs : ∀ c ∈ L, c ≠ NUL ∧ c ∈ ds :=
        fun c hc => ⟨hs c (List.mem_append_left _ hc), hL c hc⟩
      have hTs : ∀ c ∈ T, c ≠ NUL ∧ c ∉ ds :=
        fun c hc => ⟨hs c (List.mem_append_right _ (List.mem_append_left _ hc)), hT c hc⟩
      have hds : d ≠ NUL ∧ d ∈ ds :=
        ⟨hs d (List.mem_append_right _ (List.mem_append_right _ (List.mem_cons_self d X))), hd⟩
      have hXs : ∀ c ∈ X, c ≠ NUL := fun c hc =>
        hs c (List.mem_append_right _ (List.mem_append_right _ (List.mem_cons_of_mem d hc)))
      have hbuf0 : pre ++ ((L ++ (T ++ d :: X)) ++ tail) = pre ++ (L ++ (T ++ d :: (X ++ tail))) := by
        simp
      rw [hbuf0, strtok_cut ds pre L T (X ++ tail) d hLs hTs hT0 hds]
      have hfuel : X.length < fuel := by
        simp only [List.length_append, List.length_cons] at hlen
        omega
      have hnext := ih (pre ++ (L ++ (T ++ [NUL]))) X tail hfuel hXs htail
      have hbuf : pre ++ (L ++ (T ++ NUL :: (X ++ tail)))
          = (pre ++ (L ++ (T ++ [NUL]))) ++ (X ++ tail) := by simp
      have hpos : pre.length + L.length + T.length + 1 = (pre ++ (L ++ (T ++ [NUL]))).length := by
        simp [Nat.add_assoc]
      have hcs : cstr (pre ++ (L ++ (T ++ NUL :: (X ++ tail)))) (pre.length + L.length) = T := by
        have := cstr_append (pre ++ L) T (NUL :: (X ++ tail)) (fun c hc => (hTs c hc).1) rfl
        simpa using this
      simp only [tok_loop, hcs]
      rw [hpos, hbuf, hnext, fields_skip ds L _ hL, fields_cons ds T X d hT hT0 hd]
      rfl

theorem count_loop_eq (fuel : Nat) (t : Tok) :
    count_loop fuel t = tok_loop delims 0 (fun _ r => r.map (· + 1)) fuel t := by
  induction fuel generalizing t with
  | zero => rfl
  | succ fuel ih =>
    unfold count_loop tok_loop
    cases t.tok with
    | none => rfl
    | some p => simp only [ih]

theorem argv_loop_eq (fuel : Nat) (t : Tok) :
    argv_loop fuel t = tok_loop delims [] (fun tok r => r.map (tok :: ·)) fuel t := by
  induction fuel generalizing t with
  | zero => rfl
  | succ fuel ih =>
    unfold argv_loop tok_loop
    cases t.tok with
    | none => rfl
    | some p => simp only [ih]

theorem path_loop_eq (w : World) (command : Str) (fuel : Nat) (t : Tok) :
    path_loop w command fuel t
      = tok_loop [':'] (cwd_check w command) (path_step w command) fuel t := by
  induction fuel generalizing t with
  | zero => rfl
  | succ fuel ih =>
    unfold path_loop tok_loop
    cases t.tok with
    | none => rfl
    | some p => simp only [ih, path_step]

theorem foldr_path_step (w : World) (command : Str) (dirs : List Str) :
    dirs.foldr (path_step w command) (some (cwd_check w command))
      = some (search w command dirs) := by
  induction dirs with
  | nil => rfl
  | cons d ds ih =>
    rw [List.foldr_cons, ih]
    simp only [path_step, search, candidate]
    split <;> simp

theorem foldr_collect (l : List Str) :
    l.foldr (fun tok (r : Option (List Str)) => r.map (tok :: ·)) (some []) = some l := by
  induction l with
  | nil => rfl
  | cons a l ih => rw [List.foldr_cons, ih]; rfl

theorem foldr_count (l : List Str) :
    l.foldr (fun _ (r : Option Nat) => r.map (· + 1)) (some 0) = some l.length := by
  induction l with
  | nil => rfl
  | cons a l ih => rw [List.foldr_cons, ih]; rfl

theorem cstr_of_text (s : Str) (hs : ∀ c ∈ s, c ≠ NUL) : cstr s 0 = s := by
  have := cstr_append [] s [] hs rfl
  simpa using this

theorem headD_dropWhile_ne (s : Str) :
    (s.dropWhile (fun c => c != NUL)).headD NUL = NUL := by
  induction s with
  | nil => rfl
  | cons c cs ih =>
    by_cases h : c = NUL
    · subst h; simp [List.dropWhile_cons]
    · have hc : (c != NUL) = true := by simpa using h
      simp only [List.dropWhile_cons, hc, if_true]; exact ih

/-- The result of `get_location` in closed form: the function always returns,
and what it returns is the search over the fields of the search path. -/
theorem get_location_eq (w : World) (command : Str) :
    get_location w command = some
      (match w.path with
       | none => ⟨none, []⟩
       | some path =>
         if strlen path = 0 then cwd_check w command
         else search w command (fields [':'] (cstr path 0))) := by
  unfold get_location
  cases hp : w.path with
  | none => rfl
  | some path =>
    simp only
    split
    · rfl
    · rw [path_loop_eq]
      have hsplit : path = [] ++ (cstr path 0 ++ path.dropWhile (fun c => c != NUL)) := by
        simp [cstr]
      have hlen : (cstr path 0).length < path.length + 1 := by
        have : (cstr path 0).length ≤ path.length := by
          unfold cstr; simpa using (List.takeWhile_sublist (fun c => c != NUL) (l := path)).length_le
        omega
      have hnul : ∀ c ∈ cstr path 0, c ≠ NUL := by
        intro c hc
        have := List.mem_takeWhile_imp hc
        simpa using this
      have key := tok_loop_fields [':'] (cwd_check w command) (path_step w command)
        (path.length + 1) [] (cstr path 0) (path.dropWhile (fun c => c != NUL)) hlen hnul
        (headD_dropWhile_ne path)
      rw [← hsplit] at key
      have key0 : tok_loop [':'] (cwd_check w command) (path_step w command) (path.length + 1)
          (strtok path 0 [':'])
          = (fields [':'] (cstr path 0)).foldr (path_step w command) (some (cwd_check w command)) :=
        key
      rw [key0, foldr_path_step]

/-- For a search path that is a well-formed C text, `get_location` is the
search over the directories of the path. -/
theorem get_location_dirs (w : World) (command path : Str) (hp : w.path = some path)
    (hnul : ∀ c ∈ path, c ≠ NUL) :
    get_location w command = some (search w command (path_dirs path)) := by
  rw [get_location_eq, hp]
  simp only [strlen, cstr_of_text path hnul]
  split
  · next h =>
    have : path = [] := List.length_eq_zero.mp h
    subst this
    simp [path_dirs, fields_nil, search]
  · rfl

theorem search_first (w : World) (command : Str) :
    ∀ (dirs : List Str) (i : Nat) (d : Str), dirs[i]? = some d →
      w.access_x (candidate d command) = true →
      (∀ j e, j < i → dirs[j]? = some e → w.access_x (candidate e command) = false) →
      (search w command dirs).loc = some (candidate d command) := by
  intro dirs
  induction dirs with
  | nil => intro i d hd; simp at hd
  | cons a dirs ih =>
    intro i d hd hacc hmin
    cases i with
    | zero =>
      simp only [List.getElem?_cons_zero, Option.some.injEq] at hd
      subst hd
      simp [search, hacc]
    | succ i =>
      have ha : w.access_x (candidate a command) = false :=
        hmin 0 a (Nat.succ_pos i) (by simp)
      simp only [List.getElem?_cons_succ] at hd
      simp only [search, ha, Bool.false_eq_true, if_false]
      exact ih i d hd hacc (fun j e hj he => hmin (j + 1) e (Nat.succ_lt_succ hj) (by simpa using he))

theorem search_miss (w : World) (command : Str) (dirs : List Str)
    (hmiss : ∀ d ∈ dirs, w.access_x (candidate d command) = false) :
    (search w command dirs).loc = (cwd_check w command).loc := by
  induction dirs with
  | nil => rfl
  | cons a dirs ih =>
    have ha := hmiss a (List.mem_cons_self a dirs)
    simp only [search, ha, Bool.false_eq_true, if_false]
    exact ih (fun d hd => hmiss d (List.mem_cons_of_mem a hd))

theorem cwd_check_loc (w : World) (command : Str) :
    (cwd_check w command).loc = if w.stat_regx command then some command else none := by
  unfold cwd_check; split <;> rfl

/-! ## The path resolver -/

/-- C2: with the search path present and well formed, when the candidate of
the directory at position `i` of the path passes the access check and no
candidate of an earlier directory does, `get_location` returns that candidate. -/
theorem get_location_order_precedence (w : World) (command path : Str)
    (hp : w.path = some path) (hnul : ∀ c ∈ path, c ≠ NUL) (i : Nat) (d : Str)
    (hd : (path_dirs path)[i]? = some d) (hacc : w.access_x (candidate d command) = true)
    (hmin : ∀ j e, j < i → (path_dirs path)[j]? = some e →
      w.access_x (candidate e command) = false) :
    (get_location w command).map Found.loc = some (some (candidate d command)) := by
  rw [get_location_dirs w command path hp hnul]
  simp only [Option.map_some']
  rw [search_first w command (path_dirs path) i d hd hacc hmin]

/-- Witness of C2: the search path `/bin:/usr/bin` and a command that passes
the access check under `/usr/bin` only. -/
theorem get_location_order_precedence_witness :
    (get_location (sample_world (some "/bin:/usr/bin".toList) ["/usr/bin/ls".toList])
      "ls".toList).map Found.loc = some (some "/usr/bin/ls".toList) :=
  get_location_order_precedence
    (sample_world (some "/bin:/usr/bin".toList) ["/usr/bin/ls".toList]) "ls".toList
    "/bin:/usr/bin".toList rfl (by decide) 1 "/usr/bin".toList (by decide) (by decide)
    (by
      intro j e hj he
      have hj0 : j = 0 := by omega
      subst hj0
      have he2 : e = "/bin".toList := by
        have h0 : (path_dirs "/bin:/usr/bin".toList)[0]? = some "/bin".toList := by decide
        rw [h0] at he
        exact (Option.some.inj he).symm
      subst he2
      decide)

/-- C3: with the search path present and well formed, when the path is empty
or no candidate of its directories passes the access check, `get_location`
returns the bare command if the stat check accepts it and NULL otherwise. -/
theorem get_location_cwd_fallback (w : World) (command path : Str)
    (hp : w.path = some path) (hnul : ∀ c ∈ path, c ≠ NUL)
    (hmiss : path = [] ∨ ∀ d ∈ path_dirs path, w.access_x (candidate d command) = false) :
    (get_location w command).map Found.loc
      = some (if w.stat_regx command then some command else none) := by
  rw [get_location_dirs w command path hp hnul]
  simp only [Option.map_some']
  have hall : ∀ d ∈ path_dirs path, w.access_x (candidate d command) = false := by
    rcases hmiss with h | h
    · subst h; intro d hd; simp [path_dirs, fields_nil] at hd
    · exact h
  rw [search_miss w command (path_dirs path) hall, cwd_check_loc]

/-- Witness of C3: an empty search path and an executable `true` in the
current directory. -/
theorem get_location_cwd_fallback_witness :
    (get_location cwd_world "true".toList).map Found.loc = some (some "true".toList) :=
  get_location_cwd_fallback cwd_world "true".toList [] rfl (by decide) (Or.inl rfl)

/-- C4: without a search-path variable `get_location` returns NULL and makes
no file-system query, whatever the file system holds. -/
theorem get_location_no_path (w : World) (command : Str) (hp : w.path = none) :
    get_location w command = some ⟨none, []⟩ := by
  unfold get_location; rw [hp]

/-- Witness of C4: a command that is executable everywhere. -/
theorem get_location_no_path_witness :
    get_location no_path_world "true".toList = some ⟨none, []⟩ :=
  get_location_no_path no_path_world "true".toList rfl

/-- C9, counterexample: with the search path `/bin` and a file system where
the directory path `/bin/` passes the access check, `get_location` applied to
the empty command returns `/bin/`. -/
theorem empty_command_resolves_to_directory :
    get_location (sample_world (some "/bin".toList) ["/bin/".toList]) []
      = some ⟨some "/bin/".toList, [FsCall.access "/bin/".toList]⟩ := by
  decide

/-- C9, amended: `get_location` applied to the empty command returns NULL when
the search-path variable is absent, and when it is present and well formed, no
candidate `dir/` passes the access check and the stat check rejects the empty
path. -/
theorem get_location_empty_command (w : World)
    (hnul : ∀ path, w.path = some path → ∀ c ∈ path, c ≠ NUL)
    (hacc : ∀ path, w.path = some path → ∀ d ∈ path_dirs path,
      w.access_x (candidate d []) = false)
    (hstat : w.path ≠ none → w.stat_regx [] = false) :
    (get_location w []).map Found.loc = some none := by
  cases hp : w.path with
  | none => unfold get_location; rw [hp]; rfl
  | some path =>
    rw [get_location_dirs w [] path hp (hnul path hp)]
    simp only [Option.map_some']
    rw [search_miss w [] (path_dirs path) (hacc path hp), cwd_check_loc,
      hstat (by rw [hp]; simp)]
    rfl

/-- Witness of the amended C9: the search path `/bin:/usr/bin` over a file
system where nothing passes a check. -/
theorem get_location_empty_command_witness :
    (get_location (sample_world (some "/bin:/usr/bin".toList) []) []).map Found.loc = some none :=
  get_location_empty_command (sample_world (some "/bin:/usr/bin".toList) [])
    (by intro path hp; cases hp; decide)
    (by intro path hp d _; rfl)
    (by intro _; rfl)

/-! ## The tokenizer -/

theorem argv_loop_fields (fuel : Nat) (s tail : Str) (hlen : s.length < fuel)
    (hs : ∀ c ∈ s, c ≠ NUL) (htail : tail.headD NUL = NUL) :
    argv_loop fuel (strtok (s ++ tail) 0 delims) = some (fields delims s) := by
  have key := tok_loop_fields delims [] (fun tok (r : Option (List Str)) => r.map (tok :: ·))
    fuel [] s tail hlen hs htail
  rw [argv_loop_eq, ← foldr_collect (fields delims s)]
  exact key

theorem count_loop_fields (fuel : Nat) (s tail : Str) (hlen : s.length < fuel)
    (hs : ∀ c ∈ s, c ≠ NUL) (htail : tail.headD NUL = NUL) :
    count_loop fuel (strtok (s ++ tail) 0 delims) = some (fields delims s).length := by
  have key := tok_loop_fields delims 0 (fun _ (r : Option Nat) => r.map (· + 1))
    fuel [] s tail hlen hs htail
  rw [count_loop_eq, ← foldr_count (fields delims s)]
  exact key

theorem first_token_shape (L T R : Str) (hL : ∀ c ∈ L, c ∈ delims) (hT : ∀ c ∈ T, c ∉ delims)
    (hT0 : T ≠ []) (hR : R.takeWhile (fun c => !decide (c ∈ delims)) = []) :
    first_token (L ++ (T ++ R)) = T := by
  unfold first_token
  rw [List.dropWhile_append_of_pos (by intro c hc; simpa using hL c hc)]
  have hdrop : (T ++ R).dropWhile (fun c => decide (c ∈ delims)) = T ++ R := by
    cases T with
    | nil => exact absurd rfl hT0
    | cons a T =>
      have := hT a (List.mem_cons_self a T)
      simp [List.dropWhile_cons, this]
  rw [hdrop]
  exact takeWhile_exact _ T R (by intro c hc; simpa using hT c hc) hR

/-- What the tokenizer of `main` yields on a text with a token: the first
token alone, seen once by the counting pass. -/
theorem tokenize_shape (L T R : Str) (hL : ∀ c ∈ L, c ≠ NUL ∧ c ∈ delims)
    (hT : ∀ c ∈ T, c ≠ NUL ∧ c ∉ delims) (hT0 : T ≠ [])
    (hR : R = [] ∨ ∃ d X, d ≠ NUL ∧ d ∈ delims ∧ R = d :: X) :
    tokenize (L ++ (T ++ R)) = some (Scan.tokens [T] 1) := by
  have hLT : ∀ c ∈ L ++ T, c ≠ NUL := by
    intro c hc
    rcases List.mem_append.mp hc with h | h
    · exact (hL c h).1
    · exact (hT c h).1
  have hfLT : fields delims (L ++ T) = [T] := by
    rw [fields_skip delims L T (fun c hc => (hL c hc).2),
      fields_single delims T (fun c hc => (hT c hc).2) hT0]
  have hfT : fields delims T = [T] := fields_single delims T (fun c hc => (hT c hc).2) hT0
  have hargv : argv_loop (T.length + 1) (strtok T 0 delims) = some [T] := by
    have := argv_loop_fields (T.length + 1) T [] (Nat.lt_succ_self _) (fun c hc => (hT c hc).1) rfl
    rwa [List.append_nil, hfT] at this
  rcases hR with rfl | ⟨d, X, hd0, hd, rfl⟩
  · have h0 : strtok (L ++ (T ++ [])) 0 delims
        = ⟨some L.length, L ++ (T ++ []), L.length + T.length⟩ := by
      have := strtok_last delims [] L T [] hL hT hT0 rfl
      simpa using this
    have hcs : cstr (L ++ (T ++ [])) L.length = T :=
      cstr_append L T [] (fun c hc => (hT c hc).1) rfl
    have hcount : count_loop ((L ++ (T ++ [])).length + 1) (strtok (L ++ (T ++ [])) 0 delims)
        = some 1 := by
      have := count_loop_fields ((L ++ (T ++ [])).length + 1) (L ++ T) []
        (by simp) hLT rfl
      rw [hfLT] at this
      simpa using this
    unfold tokenize
    simp only [h0, hcs] at hcount ⊢
    rw [hcount, hargv]
  · have h0 : strtok (L ++ (T ++ d :: X)) 0 delims
        = ⟨some L.length, L ++ (T ++ NUL :: X), L.length + T.length + 1⟩ := by
      have := strtok_cut delims [] L T X d hL hT hT0 ⟨hd0, hd⟩
      simpa using this
    have hcs : cstr (L ++ (T ++ NUL :: X)) L.length = T :=
      cstr_append L T (NUL :: X) (fun c hc => (hT c hc).1) rfl
    have hcount : count_loop ((L ++ (T ++ NUL :: X)).length + 1)
        (strtok (L ++ (T ++ NUL :: X)) 0 delims) = some 1 := by
      have := count_loop_fields ((L ++ (T ++ NUL :: X)).length + 1) (L ++ T) (NUL :: X)
        (by simp; omega) hLT rfl
      rw [hfLT] at this
      simpa using this
    unfold tokenize
    simp only [h0, hcs]
    rw [hcount, hargv]

/-- The tokenizer of `main` on a text that holds a token. -/
theorem tokenize_of_text (line : Str) (hnul : ∀ c ∈ line, c ≠ NUL)
    (hch : ∃ c ∈ line, c ∉ delims) :
    tokenize line = some (Scan.tokens [first_token line] 1) := by
  obtain ⟨L, hL, hshape⟩ := text_shape delims line
  rcases hshape with h | ⟨T, hT0, hT, h | ⟨d, X, hd, h⟩⟩
  · obtain ⟨c, hc, hcd⟩ := hch
    rw [h] at hc
    exact absurd (hL c hc) hcd
  · subst h
    have hLs : ∀ c ∈ L, c ≠ NUL ∧ c ∈ delims :=
      fun c hc => ⟨hnul c (List.mem_append_left _ hc), hL c hc⟩
    have hTs : ∀ c ∈ T, c ≠ NUL ∧ c ∉ delims :=
      fun c hc => ⟨hnul c (List.mem_append_right _ hc), hT c hc⟩
    have h1 := tokenize_shape L T [] hLs hTs hT0 (Or.inl rfl)
    have h2 := first_token_shape L T [] hL hT hT0 rfl
    rw [List.append_nil] at h1 h2
    rw [h1, h2]
  · subst h
    have hLs : ∀ c ∈ L, c ≠ NUL ∧ c ∈ delims :=
      fun c hc => ⟨hnul c (List.mem_append_left _ hc), hL c hc⟩
    have hTs : ∀ c ∈ T, c ≠ NUL ∧ c ∉ delims :=
      fun c hc => ⟨hnul c (List.mem_append_right _ (List.mem_append_left _ hc)), hT c hc⟩
    have hd0 : d ≠ NUL :=
      hnul d (List.mem_append_right _ (List.mem_append_right _ (List.mem_cons_self d X)))
    rw [tokenize_shape L T (d :: X) hLs hTs hT0 (Or.inr ⟨d, X, hd0, hd, rfl⟩),
      first_token_shape L T (d :: X) hL hT hT0 (by simp [List.takeWhile_cons, hd])]

/-- The tokenizer of `main` on a text made of delimiters only. -/
theorem tokenize_of_blank (line : Str) (hnul : ∀ c ∈ line, c ≠ NUL)
    (hall : ∀ c ∈ line, c ∈ delims) : tokenize line = some Scan.blank := by
  have h0 := strtok_none delims [] line [] (fun c hc => ⟨hnul c hc, hall c hc⟩) rfl
  simp only [List.nil_append, List.append_nil, List.length_nil] at h0
  unfold tokenize
  rw [h0]

/-- C1, evaluated at the line `ls -l /tmp`: the argument vector that `main`
builds holds `ls` alone, not the three fields `ls`, `-l`, `/tmp` of the line. -/
theorem tokenize_drops_arguments :
    tokenize "ls -l /tmp\n".toList = some (Scan.tokens ["ls".toList] 1) ∧
      fields delims "ls -l /tmp\n".toList = ["ls".toList, "-l".toList, "/tmp".toList] := by
  decide

/-! ## Repeat count -/

theorem get_location_returns (w : World) (command : Str) :
    ∃ f, get_location w command = some f :=
  ⟨_, get_location_eq w command⟩

theorem digits_value_zeros (ds : Str) (h : ∀ c ∈ ds, c = '0') : digits_value ds = 0 := by
  unfold digits_value
  induction ds with
  | nil => rfl
  | cons c cs ih =>
    have hc : c = '0' := h c (List.mem_cons_self c cs)
    subst hc
    rw [List.foldl_cons]
    exact ih (fun x hx => h x (List.mem_cons_of_mem _ hx))

theorem atoi_zero (a : Str) (h : ∀ c ∈ digit_run a, c = '0') : atoi a = 0 := by
  unfold atoi strtol10
  rw [digits_value_zeros (digit_run a) h]
  simp [to_int]

/-- One round of the repeat loop makes one call of `execute_command`. -/
theorem repeat_loop_once (w : World) (command : Str) (args : List Str) :
    ∃ evs ctl, repeat_loop w command args 1 0 = some (evs, ctl) ∧ execute_calls evs = 1 := by
  obtain ⟨f, hf⟩ := get_location_returns w command
  unfold repeat_loop execute_command execmd
  by_cases hfork : w.fork_ok 0 = true
  · refine ⟨[Event.spawn f.loc (command :: args)], Ctl.next, ?_, rfl⟩
    simp [hfork, hf, repeat_loop]
  · refine ⟨[Event.fork_error], Ctl.exit 1, ?_, rfl⟩
    simp [hfork]

/-- C6, counterexample: in the external-execution branch the argument vector
`ls -3` makes no call of `execute_command` at all, `atoi` yielding -3. -/
theorem external_branch_negative_count :
    (external_branch (sample_world (some "/bin".toList) ["/bin/ls".toList]) "ls".toList
        ["-3".toList]).map (fun r => execute_calls r.1) = some 0 ∧
      atoi "-3".toList = -3 := by
  decide

/-- C6, amended: in the external-execution branch, when the second element of
the argument vector is absent, or starts with no digit after optional white
space and sign (`atoi` finds no number), or starts with a run of digits that
are all `0` (the number is zero), `execute_command` is called exactly once. -/
theorem external_branch_default_once (w : World) (command : Str) (args : List Str)
    (h : args.head? = none ∨ ∃ a, args.head? = some a ∧
      (digit_run a = [] ∨ (digit_run a ≠ [] ∧ ∀ c ∈ digit_run a, c = '0'))) :
    (external_branch w command args).map (fun r => execute_calls r.1) = some 1 := by
  have htimes : repeat_times args = 1 := by
    unfold repeat_times
    rcases h with h | ⟨a, ha, hz⟩
    · rw [h]
    · rw [ha]
      have : atoi a = 0 := by
        apply atoi_zero
        rcases hz with hz | hz
        · rw [hz]; intro c hc; simp at hc
        · exact hz.2
      simp [this]
  obtain ⟨evs, ctl, hrun, hcalls⟩ := repeat_loop_once w command args
  unfold external_branch
  rw [htimes]
  have hrun1 : repeat_loop w command args (1 : Int).toNat 0 = some (evs, ctl) := hrun
  rw [hrun1, Option.map_some', hcalls]

/-- Witness of the amended C6: the argument vector `ls abc`. -/
theorem external_branch_default_once_witness :
    (external_branch (sample_world (some "/bin".toList) ["/bin/ls".toList])
      "ls".toList ["abc".toList]).map (fun r => execute_calls r.1) = some 1 :=
  external_branch_default_once (sample_world (some "/bin".toList) ["/bin/ls".toList])
    "ls".toList ["abc".toList] (Or.inr ⟨"abc".toList, rfl, Or.inl (by decide)⟩)

/-- C5, evaluated at the line `ls 3` with `ls` resolving to `/bin/ls`: one
iteration of `main` spawns `/bin/ls` once, with the argument vector `ls`
alone, although `atoi` reads 3 from the second field of the line. -/
theorem iteration_ignores_repeat_count :
    (iteration (sample_world (some "/bin".toList) ["/bin/ls".toList]) "ls 3\n".toList).map
        (fun st => (st.events, st.ctl))
      = some ([Event.spawn (some "/bin/ls".toList) ["ls".toList]], Ctl.next) ∧
    fields delims "ls 3\n".toList = ["ls".toList, "3".toList] ∧ atoi "3".toList = 3 := by
  decide

/-! ## Builtins -/

theorem spawn_count_print_environment (w : World) : spawn_count (print_environment w) = 0 := by
  unfold print_environment
  induction w.environ with
  | nil => rfl
  | cons e es ih => simpa [spawn_count] using ih

/-- C7: when the first element of the argument vector is `exit`, or `env`, or
`cp` with at least two further elements, the dispatch of `main` returns with a
trace that holds no child process: `exit` leaves the loop with an empty trace,
`env` writes the environment and goes on, `cp` runs `copy_file` on the two
operands and either goes on with the files it leaves or ends the shell with
status 1.  The world, and with it the result of `get_location`, is arbitrary. -/
theorem builtin_shadows_external (w : World) (command : Str) (args : List Str)
    (h : command = "exit".toList ∨ command = "env".toList ∨
      (command = "cp".toList ∧ 2 ≤ args.length)) :
    ∃ st, dispatch w command args = some st ∧ spawn_count st.events = 0 ∧
      (command = "exit".toList → st.ctl = Ctl.stop ∧ st.events = []) ∧
      (command = "env".toList → st.ctl = Ctl.next ∧ st.events = print_environment w) ∧
      (command = "cp".toList → ∃ src dst rest, args = src :: dst :: rest ∧
        ((copy_file w src dst = Copied.open_failed ∧ st.ctl = Ctl.exit 1) ∨
          (copy_file w src dst = Copied.done st.files ∧ st.ctl = Ctl.next))) := by
  obtain ⟨f, hf⟩ := get_location_returns w command
  unfold dispatch
  rw [hf]
  rcases h with h | h | ⟨h, hargs⟩
  · subst h
    exact ⟨⟨[], Ctl.stop, w.files⟩, by simp, rfl, fun _ => ⟨rfl, rfl⟩,
      fun h => absurd h (by decide), fun h => absurd h (by decide)⟩
  · subst h
    refine ⟨⟨print_environment w, Ctl.next, w.files⟩, ?_, spawn_count_print_environment w,
      fun h => absurd h (by decide), fun _ => ⟨rfl, rfl⟩, fun h => absurd h (by decide)⟩
    simp
  · subst h
    obtain ⟨src, dst, rest, rfl⟩ : ∃ src dst rest, args = src :: dst :: rest := by
      match args, hargs with
      | src :: dst :: rest, _ => exact ⟨src, dst, rest, rfl⟩
    have hcp : cp_operands "cp".toList (src :: dst :: rest) = some (src, dst) := by
      simp [cp_operands]
    have hne1 : ¬ ("cp".toList = "exit".toList) := by decide
    have hne2 : ¬ ("cp".toList = "env".toList) := by decide
    simp only [hcp, hne1, hne2, if_false]
    cases hc : copy_file w src dst with
    | open_failed =>
      exact ⟨⟨[Event.perror "Error:".toList], Ctl.exit 1, w.files⟩, rfl, rfl,
        fun h => absurd h (by decide), fun h => absurd h (by decide),
        fun _ => ⟨src, dst, rest, rfl, Or.inl ⟨hc, rfl⟩⟩⟩
    | done files =>
      exact ⟨⟨[], Ctl.next, files⟩, rfl, rfl,
        fun h => absurd h (by decide), fun h => absurd h (by decide),
        fun _ => ⟨src, dst, rest, rfl, Or.inr ⟨hc, rfl⟩⟩⟩

/-- Witness of C7: the command `env` in a world where `/usr/bin/env` passes
the access check. -/
theorem builtin_shadows_external_witness :
    (dispatch (sample_world (some "/usr/bin".toList) ["/usr/bin/env".toList])
        "env".toList []).map (fun st => spawn_count st.events) = some 0 ∧
      (get_location (sample_world (some "/usr/bin".toList) ["/usr/bin/env".toList])
        "env".toList).map Found.loc = some (some "/usr/bin/env".toList) := by
  obtain ⟨st, hst, hspawn, _⟩ := builtin_shadows_external
    (sample_world (some "/usr/bin".toList) ["/usr/bin/env".toList]) "env".toList []
    (Or.inr (Or.inl rfl))
  refine ⟨?_, by decide⟩
  rw [hst, Option.map_some', hspawn]

/-! ## File copy -/

theorem to_char_EOF : to_char (fgetc []).1 = EOF := by decide

/-- C8, evaluated at a source file that holds the bytes 0x41, 0xFF, 0x42: both
opens succeed and `copy_file` leaves the single byte 0x41 in the destination,
the source still holding its three bytes. -/
theorem copy_file_stops_at_ff :
    (match copy_file ff_world "a.txt".toList "b.txt".toList with
      | Copied.done files => (files "a.txt".toList, files "b.txt".toList)
      | Copied.open_failed => (none, none))
      = (some [65, 255, 66], some [65]) := by
  decide

theorem to_char_ne_EOF (b : Byte) : to_char (b.val : Int) ≠ EOF ↔ b ≠ 255 := by
  have hb := b.isLt
  have h255 : ((255 : Byte) : Nat) = 255 := rfl
  unfold to_char EOF
  rw [Ne, Ne, Fin.ext_iff, h255]
  omega

theorem to_uchar_to_char (b : Byte) : to_uchar (to_char (b.val : Int)) = b := by
  have hb := b.isLt
  apply Fin.ext
  unfold to_uchar to_char
  simp only [Fin.ofNat, Fin.val_mk]
  omega

/-- What `copy_loop` writes: the source up to its first byte 0xFF. -/
theorem copy_loop_eq (src written : List Byte) :
    copy_loop src written = written ++ src.takeWhile (fun b => decide (b ≠ 255)) := by
  induction src generalizing written with
  | nil => simp [copy_loop]
  | cons b bs ih =>
    unfold copy_loop
    simp only [fgetc]
    by_cases hb : b = 255
    · subst hb
      have : ¬ (to_char (((255 : Byte) : Nat) : Int) ≠ EOF) := by decide
      simp only [this, if_false]
      simp
    · have : to_char (b.val : Int) ≠ EOF := (to_char_ne_EOF b).mpr hb
      simp only [this, hb, if_true, ne_eq, not_false_eq_true, decide_True, List.takeWhile_cons]
      rw [ih, to_uchar_to_char]
      simp

/-! ## One iteration -/

theorem execute_calls_print_environment (w : World) :
    execute_calls (print_environment w) = 0 := by
  unfold print_environment
  induction w.environ with
  | nil => rfl
  | cons e es ih => simpa [execute_calls] using ih

/-- The dispatch of an argument vector of one element returns and calls
`execute_command` at most once. -/
theorem dispatch_single (w : World) (command : Str) :
    ∃ st, dispatch w command [] = some st ∧ execute_calls st.events ≤ 1 := by
  obtain ⟨f, hf⟩ := get_location_returns w command
  obtain ⟨evs, ctl, hrun, hcalls⟩ := repeat_loop_once w command []
  have hext : external_branch w command [] = some (evs, ctl) := hrun
  have hcp : cp_operands command [] = none := by
    unfold cp_operands; split <;> rfl
  unfold dispatch
  rw [hf]
  simp only [hcp, hext, Option.map_some']
  by_cases h1 : command = "exit".toList
  · exact ⟨_, if_pos h1, Nat.zero_le _⟩
  · rw [if_neg h1]
    by_cases h2 : command = "env".toList
    · refine ⟨_, if_pos h2, ?_⟩
      rw [execute_calls_print_environment]; exact Nat.zero_le _
    · rw [if_neg h2]
      by_cases h3 : f.loc = none
      · exact ⟨_, if_pos h3, Nat.zero_le _⟩
      · exact ⟨_, if_neg h3, Nat.le_of_eq hcalls⟩

/-- Every iteration of `main` on a well-formed line returns and calls
`execute_command` at most once, whatever follows the first token. -/
theorem iteration_at_most_once (w : World) (line : Str) (hnul : ∀ c ∈ line, c ≠ NUL) :
    ∃ st, iteration w line = some st ∧ execute_calls st.events ≤ 1 := by
  unfold iteration
  by_cases hch : ∃ c ∈ line, c ∉ delims
  · rw [tokenize_of_text line hnul hch]
    exact dispatch_single w (first_token line)
  · have hall : ∀ c ∈ line, c ∈ delims := by
      intro c hc
      by_contra hcd
      exact hch ⟨c, hc, hcd⟩
    rw [tokenize_of_blank line hnul hall]
    exact ⟨_, rfl, Nat.zero_le _⟩

end Shell
